import Mathlib

/-!
Verification of the ossa SSA/CFG library against its specification.

Modelling conventions, used throughout:

* Basic blocks and SSA values are referenced by identity in Go (`*BasicBlock`,
  `*Value`).  We model block identities and value identities as `Nat`.  The Go
  `nil` pointer is modelled as `Option.none` where a function can return it.
* Go's `map`-backed sets (`BasicBlockSet`) are modelled as duplicate-free
  `List Nat` in insertion order, with `setAdd` mirroring `Set.Add` (a no-op on
  a present member).  Go map iteration order is unspecified; iterating the
  insertion-order list realizes one admissible iteration order.
* Go's maps from blocks to sets (`PredecessorsTable`, `DominatorsTable`) are
  modelled as association lists (`Table`) in key-insertion order, with
  recursive `tLookup`/`tSet` mirroring map read/write.
* Potentially non-terminating worklist loops are modelled with an explicit
  fuel parameter and return `Option`, `none` meaning the fuel ran out.
-/

set_option maxRecDepth 8000

namespace ossa

/-- Operation codes, mirroring the closed `Op` enumeration of the source
(`opInvalid` through `opEndTerminators`, in declaration order). -/
inductive Op where
  | opInvalid
  | opGlobalSym
  | opLocalSym
  | opArgument
  | opAuxLiteral
  | opPhi
  | opLoad
  | opStore
  | opCall
  | opBasicBlock
  | opEndValues
  | opJump
  | opBranch
  | opSwitch
  | opReturn
  | opYield
  | opAwait
  | opUnreachable
  | opEndTerminators
deriving DecidableEq, Repr

/-- A `(BasicBlock, Value)` pair, mirroring `BasicBlockValue`.  Fields the Go
code leaves as `nil` pointers are filled with `0` here (the Go zero value). -/
structure BasicBlockValue where
  block : Nat
  value : Nat
deriving DecidableEq, Repr

/-- A terminator: an operation code plus its argument slots, mirroring
`struct Terminator`. -/
structure Terminator where
  op : Op
  args : List BasicBlockValue
deriving DecidableEq, Repr

/-- `Jump(target)`: op `OpJump`, args `[{Block: target}]`. -/
def Jump (target : Nat) : Terminator :=
  ⟨Op.opJump, [⟨target, 0⟩]⟩

/-- `Branch(cond, trueTarget, falseTarget)`: op `OpBranch`,
args `[{Value: cond, Block: trueTarget}, {Block: falseTarget}]`. -/
def Branch (cond trueTarget falseTarget : Nat) : Terminator :=
  ⟨Op.opBranch, [⟨trueTarget, cond⟩, ⟨falseTarget, 0⟩]⟩

/-- `Switch(inp, defTarget, cases...)`: op `OpSwitch`, args
`[{Value: inp, Block: defTarget}] ++ cases`. -/
def Switch (inp defTarget : Nat) (cases : List BasicBlockValue) : Terminator :=
  ⟨Op.opSwitch, ⟨defTarget, inp⟩ :: cases⟩

/-- `Return(ret)`: op `OpReturn`, args `[{Value: ret}]`. -/
def Return (ret : Nat) : Terminator :=
  ⟨Op.opReturn, [⟨0, ret⟩]⟩

/-- `Yield(resume)`: op `OpYield`, args `[{Block: resume}]`. -/
def Yield (resume : Nat) : Terminator :=
  ⟨Op.opYield, [⟨resume, 0⟩]⟩

/-- `Await(event, resume)`: op `OpAwait`, args `[{Value: event, Block: resume}]`. -/
def Await (event resume : Nat) : Terminator :=
  ⟨Op.opAwait, [⟨resume, event⟩]⟩

/-- The distinguished `Unreachable` terminator: op `OpUnreachable`, no args. -/
def Unreachable : Terminator :=
  ⟨Op.opUnreachable, []⟩

/-- `Terminator.AppendSuccessors`: appends the successor blocks for the
receiving terminator to `to`, switching on the op exactly as the source does.
The Go default branch panics; no claim exercises it, so it returns `to`. -/
def Terminator.appendSuccessors (t : Terminator) (dst : List Nat) : List Nat :=
  match t.op with
  | Op.opJump => dst ++ [(t.args.getD 0 ⟨0, 0⟩).block]
  | Op.opBranch => dst ++ [(t.args.getD 0 ⟨0, 0⟩).block, (t.args.getD 1 ⟨0, 0⟩).block]
  | Op.opSwitch => dst ++ t.args.map BasicBlockValue.block
  | Op.opReturn => dst
  | Op.opUnreachable => dst
  | Op.opYield => dst ++ [(t.args.getD 0 ⟨0, 0⟩).block]
  | Op.opAwait => dst ++ [(t.args.getD 0 ⟨0, 0⟩).block]
  | _ => dst

/-- A control flow graph: the terminator of each block, mirroring the
`Terminator` field of `BasicBlock` (the instruction list is irrelevant to
every claim). -/
abbrev CFG := Nat → Terminator

/-- The successor list of block `b`, as enumerated by
`Terminator.AppendSuccessors` starting from a nil slice. -/
def successors (g : CFG) (b : Nat) : List Nat :=
  (g b).appendSuccessors []

/-- `BasicBlockSet.Add`: insert `b` into the insertion-ordered set `s`; a
no-op if already present. -/
def setAdd (s : List Nat) (b : Nat) : List Nat :=
  if b ∈ s then s else s ++ [b]

/-- Declarative reachability: the blocks reachable from `start` by following
successor edges, including `start` itself. -/
inductive Reachable (g : CFG) (start : Nat) : Nat → Prop where
  | refl : Reachable g start start
  | step {p s : Nat} : Reachable g start p → s ∈ successors g p → Reachable g start s

/-- The loop of `BasicBlock.AddReachable`: pop a block off the end of `todo`;
if it is not yet in `to`, add it and push successors.  The source's line
`todo = b.Terminator.AppendSuccessors(todo)` expands the successors of the
RECEIVER `b`, not of the popped `block`; this translation keeps that
behavior (`g b`, not `g block`). -/
def addReachableLoop (g : CFG) (b : Nat) : Nat → List Nat → List Nat → Option (List Nat)
  | 0, _, _ => none
  | fuel + 1, todo, dst =>
    match todo.getLast? with
    | none => some dst
    | some block =>
      if block ∈ dst then addReachableLoop g b fuel todo.dropLast dst
      else addReachableLoop g b fuel ((g b).appendSuccessors todo.dropLast) (setAdd dst block)

/-- `BasicBlock.AddReachable`: seeds the work stack with the receiver `b` and
runs the loop over the given set `to`. -/
def AddReachable (g : CFG) (b : Nat) (dst : List Nat) (fuel : Nat) : Option (List Nat) :=
  addReachableLoop g b fuel [b] dst

/-- An SSA value node: operation code and ordered argument value identities,
mirroring `struct Value` (the auxiliary payload is not used by any claim). -/
structure Value where
  op : Op
  args : List Nat
deriving DecidableEq, Repr

/-- Allocation of `*Value` nodes: the heap is the list of allocated nodes and
a node's identity is its index. -/
abbrev Heap := List Value

/-- `LocalSym()`: allocates a fresh local symbol node with no arguments;
returns the new heap and the new node's identity. -/
def LocalSym (h : Heap) : Heap × Nat :=
  (h ++ [⟨Op.opLocalSym, []⟩], h.length)

/-- `Store(val, ref)`: allocates the store node `v` and sets
`v.args[0] = v` and `v.args[1] = ref`, exactly as the source does (the
source assigns the node itself, `v`, to slot 0 — `h.length` is the identity
of the node being allocated). -/
def Store (h : Heap) (val ref : Nat) : Heap × Nat :=
  (h ++ [⟨Op.opStore, [h.length, ref]⟩], h.length)

end ossa

namespace oana

open ossa

/-- `PredecessorsTable` / `DominatorsTable`: a map from block identity to a
set of block identities, as an association list in key-insertion order. -/
abbrev Table := List (Nat × List Nat)

/-- Map read `t[k]`, distinguishing an absent key (`none`) from a present
empty set. -/
def tLookup : Table → Nat → Option (List Nat)
  | [], _ => none
  | e :: rest, k => if e.1 = k then some e.2 else tLookup rest k

/-- Map read with the Go zero value: an absent key reads as the empty set
(ranging over a nil map yields nothing). -/
def tLookupD (t : Table) (k : Nat) : List Nat :=
  (tLookup t k).getD []

/-- The `_, exists := t[k]` test. -/
def tHasKey (t : Table) (k : Nat) : Bool :=
  (tLookup t k).isSome

/-- Map write `t[k] = v`: replaces the value of an existing key in place, or
appends a new key. -/
def tSet : Table → Nat → List Nat → Table
  | [], k, v => [(k, v)]
  | e :: rest, k, v => if e.1 = k then (k, v) :: rest else e :: tSet rest k v

/-- The body of the `FindPredecessors` successor callback: ensure `ret[succ]`
exists and add `pred` to it. -/
def tAddEdge (t : Table) (succ pred : Nat) : Table :=
  tSet t succ (setAdd (tLookupD t succ) pred)

/-- `blockLIFO`: a duplicate-suppressing stack.  `items` has its top at the
END of the list, matching the Go slice; `present` is the membership set. -/
structure blockLIFO where
  items : List Nat
  present : List Nat
deriving DecidableEq, Repr

/-- `newBlockLIFO`: an empty stack (the initial capacity is irrelevant). -/
def newBlockLIFO : blockLIFO :=
  ⟨[], []⟩

/-- `blockLIFO.Add`: push `b` unless it is already present. -/
def lifoAdd (q : blockLIFO) (b : Nat) : blockLIFO :=
  if b ∈ q.present then q else ⟨q.items ++ [b], setAdd q.present b⟩

/-- `blockLIFO.Length`. -/
def lifoLength (q : blockLIFO) : Nat :=
  q.items.length

/-- `blockLIFO.Peek`: the top of the stack, or `none` for the Go `nil`
return on an empty stack. -/
def lifoPeek (q : blockLIFO) : Option Nat :=
  q.items.getLast?

/-- `blockLIFO.Next`: pop the top of the stack and drop it from `present`;
`none` models the Go `nil` return on an empty stack. -/
def lifoNext (q : blockLIFO) : Option (Nat × blockLIFO) :=
  match q.items.getLast? with
  | none => none
  | some b => some (b, ⟨q.items.dropLast, q.present.filter (fun x => x ≠ b)⟩)

/-- `blockLIFO.ReverseTopN`: reverse the order of the top `n` items in
place. -/
def lifoReverseTopN (q : blockLIFO) (n : Nat) : blockLIFO :=
  ⟨q.items.take (q.items.length - n) ++ (q.items.drop (q.items.length - n)).reverse, q.present⟩

/-- The representation invariant of `blockLIFO`: no duplicate items, and the
`present` membership set holds exactly the stacked items. -/
def lifoInv (q : blockLIFO) : Prop :=
  q.items.Nodup ∧ ∀ b, b ∈ q.present ↔ b ∈ q.items

/-- `blockFIFO`: a duplicate-suppressing queue; the linked list of entries is
modelled as a front-first list. -/
structure blockFIFO where
  queue : List Nat
  present : List Nat
deriving DecidableEq, Repr

/-- `newblockFIFO`: an empty queue. -/
def newblockFIFO : blockFIFO :=
  ⟨[], []⟩

/-- `blockFIFO.Add`: append `b` unless it is already present. -/
def fifoAdd (q : blockFIFO) (b : Nat) : blockFIFO :=
  if b ∈ q.present then q else ⟨q.queue ++ [b], setAdd q.present b⟩

/-- The observable outcome of `blockFIFO.Peek`. -/
inductive PeekResult where
  | crashed
  | returned (block : Nat)
deriving DecidableEq, Repr

/-- `blockFIFO.Peek` is `return q.next.block` with no emptiness check: on an
empty queue `q.next` is the nil pointer and the field access crashes the
program (`crashed`); otherwise it returns the front block without removing
it. -/
def fifoPeek (q : blockFIFO) : PeekResult :=
  match q.queue with
  | [] => PeekResult.crashed
  | b :: _ => PeekResult.returned b

/-- `blockFIFO.Next`: dequeue the front block, or return the Go `nil`
(`none`) on an empty queue. -/
def fifoNext (q : blockFIFO) : Option (Nat × blockFIFO) :=
  match q.queue with
  | [] => none
  | b :: rest => some (b, ⟨rest, q.present.filter (fun x => x ≠ b)⟩)

/-- `block.AddSuccessors(q)` for a `blockLIFO`: add each successor in
`AppendSuccessors` order. -/
def lifoAddSuccessors (g : CFG) (b : Nat) (q : blockLIFO) : blockLIFO :=
  (successors g b).foldl lifoAdd q

/-- The loop of `ForwardDataFlow`, generic in the analyzer: pop a block,
analyze it, and if it reported a change push its successors and reverse the
newly added span. -/
def forwardDataFlowLoop {σ : Type} (g : CFG) (analyze : σ → Nat → σ × Bool) :
    Nat → blockLIFO → σ → Option σ
  | 0, _, _ => none
  | fuel + 1, q, st =>
    match lifoNext q with
    | none => some st
    | some (block, q1) =>
      let r := analyze st block
      if r.2 then
        let l := lifoLength q1
        let q2 := lifoAddSuccessors g block q1
        forwardDataFlowLoop g analyze fuel (lifoReverseTopN q2 (lifoLength q2 - l)) r.1
      else
        forwardDataFlowLoop g analyze fuel q1 r.1

/-- `ForwardDataFlow(start, analyzer)`: seed the worklist with `start` and
run the loop, threading the analyzer's state explicitly. -/
def ForwardDataFlow {σ : Type} (g : CFG) (analyze : σ → Nat → σ × Bool)
    (start : Nat) (st : σ) (fuel : Nat) : Option σ :=
  forwardDataFlowLoop g analyze fuel (lifoAdd newBlockLIFO start) st

/-- `dominatorsAnalyzer.AnalyzeBlock`: intersect the dominator sets of the
already-visited predecessors into this block's set (the first such
predecessor is unioned in via `AddBlocksTo`), re-add the block itself, and
report a change iff the set's size differs from before the visit.  A
predecessor equal to `block` itself aliases the set under construction in
the Go code, hence the `p = block` case. -/
def analyzeBlock (preds : Table) (t : Table) (block : Nat) : Table × Bool :=
  let s0 := tLookupD t block
  let t0 := tSet t block s0
  let priorLen := s0.length
  let res := (tLookupD preds block).foldl
    (fun acc p =>
      let pd := if p = block then some acc.1 else tLookup t0 p
      match pd with
      | none => acc
      | some pdSet =>
        if acc.2 then (pdSet.foldl setAdd acc.1, false)
        else ((acc.1.filter (fun b => pdSet.contains b)), false))
    (s0, true)
  let s2 := setAdd res.1 block
  (tSet t0 block s2, s2.length != priorLen)

/-- `FindDominators(start, preds)`: run the dominators analyzer through the
forward dataflow engine starting from an empty table. -/
def FindDominators (g : CFG) (start : Nat) (preds : Table) (fuel : Nat) : Option Table :=
  ForwardDataFlow g (analyzeBlock preds) start [] fuel

/-- The successor callback of `FindPredecessors`, folded over the popped
block's successor list in order: record the edge and enqueue unseen
successors.  `seen` already includes the popped block. -/
def procSuccs (seen : List Nat) (pred : Nat) :
    List Nat → Table → blockLIFO → Table × blockLIFO
  | [], ret, q => (ret, q)
  | s :: rest, ret, q =>
    procSuccs seen pred rest (tAddEdge ret s pred)
      (if s ∈ seen then q else lifoAdd q s)

/-- The loop of `FindPredecessors`: pop a block, mark it seen, and process
its successors. -/
def findPredecessorsLoop (g : CFG) :
    Nat → blockLIFO → List Nat → Table → Option Table
  | 0, _, _, _ => none
  | fuel + 1, q, seen, ret =>
    match lifoNext q with
    | none => some ret
    | some (pred, q1) =>
      findPredecessorsLoop g fuel
        (procSuccs (setAdd seen pred) pred (successors g pred) ret q1).2
        (setAdd seen pred)
        (procSuccs (setAdd seen pred) pred (successors g pred) ret q1).1

/-- `FindPredecessors(start)`: invert the successor edges of all blocks
reachable from `start`. -/
def FindPredecessors (g : CFG) (start : Nat) (fuel : Nat) : Option Table :=
  findPredecessorsLoop g fuel (lifoAdd newBlockLIFO start) [] []

/-- A natural loop: the back edge from `tail` to `head`. -/
structure NaturalLoop where
  head : Nat
  tail : Nat
deriving DecidableEq, Repr

/-- `FindNaturalLoops(doms, to)`: for each block with a known dominator set,
append one loop per successor that dominates it, walking the table in order
and each block's successors in `AppendSuccessors` order. -/
def FindNaturalLoops (g : CFG) (doms : Table) (dst : List NaturalLoop) : List NaturalLoop :=
  doms.foldl
    (fun acc e =>
      (successors g e.1).foldl
        (fun acc2 succ =>
          if succ ∈ e.2 then acc2 ++ [⟨succ, e.1⟩] else acc2)
        acc)
    dst

/-- The loop of `NaturalLoop.FindBody`: depth-first walk backward through the
predecessor map, collecting blocks not yet in the result. -/
def findBodyLoop (preds : Table) : Nat → blockLIFO → List Nat → Option (List Nat)
  | 0, _, _ => none
  | fuel + 1, q, ret =>
    match lifoNext q with
    | none => some ret
    | some (block, q1) =>
      if block ∈ ret then findBodyLoop preds fuel q1 ret
      else findBodyLoop preds fuel ((tLookupD preds block).foldl lifoAdd q1) (setAdd ret block)

/-- `NaturalLoop.FindBody(preds)`: start from `{head}` and walk backward from
`tail`. -/
def FindBody (l : NaturalLoop) (preds : Table) (fuel : Nat) : Option (List Nat) :=
  findBodyLoop preds fuel (lifoAdd newBlockLIFO l.tail) [l.head]

/-- Declarative description of the loops appended by `FindNaturalLoops`: for
each table entry `(B, D)` in order, one loop per occurrence of a successor
`S` of `B` with `S ∈ D`, in successor-enumeration order. -/
def naturalLoopsOf (g : CFG) (doms : Table) : List NaturalLoop :=
  doms.flatMap (fun e =>
    ((successors g e.1).filter (fun s => s ∈ e.2)).map (fun s => ⟨s, e.1⟩))

end oana

namespace examples

open ossa oana

/-- The canonical 4-block loop graph of the tests:
0 = entry, 1 = loopHeader, 2 = loopBody, 3 = exit. -/
def g4 : CFG := fun b =>
  if b = 0 then Jump 1
  else if b = 1 then Branch 100 2 3
  else if b = 2 then Jump 1
  else Return 101

/-- `FindDominators(entry, FindPredecessors(entry))` on the canonical 4-block
loop graph. -/
def domsG4 : Option Table :=
  (FindPredecessors g4 0 50).bind (fun p => FindDominators g4 0 p 50)

/-- The predecessors table `FindPredecessors` computes for `g4` from block 0. -/
def predsG4 : Table := [(1, [0, 2]), (2, [1]), (3, [1])]

/-- `a.changeCount[block]` of the test's `loggingBlockAnalyzer` (a Go map
read, zero when absent). -/
def cntGet (c : List (Nat × Nat)) (k : Nat) : Nat :=
  ((c.find? (fun e => e.1 = k)).map (fun e => e.2)).getD 0

/-- `a.changeCount[block] = v` of the test's `loggingBlockAnalyzer`. -/
def cntSet : List (Nat × Nat) → Nat → Nat → List (Nat × Nat)
  | [], k, v => [(k, v)]
  | e :: rest, k, v => if e.1 = k then (k, v) :: rest else e :: cntSet rest k v

/-- `loggingBlockAnalyzer.AnalyzeBlock`: record the call, and report a change
while the block's scheduled change count is positive, decrementing it. -/
def logAnalyze (st : List (Nat × Nat) × List Nat) (block : Nat) :
    (List (Nat × Nat) × List Nat) × Bool :=
  let calls := st.2 ++ [block]
  let ct := cntGet st.1 block
  if ct > 0 then ((cntSet st.1 block (ct - 1), calls), true)
  else ((st.1, calls), false)

/-- The run of `ForwardDataFlow` on `g4` with the logging analyzer and the
test's change counts entry:1, loopHeader:2, loopBody:1, exit:1. -/
def c3run : Option ((List (Nat × Nat)) × List Nat) :=
  ForwardDataFlow g4 logAnalyze 0 ([(0, 1), (1, 2), (2, 1), (3, 1)], []) 50

/-- The 5-block loop graph of the natural-loops test:
0 = entry, 1 = loopHeader, 2 = loopBody, 3 = loopTail, 4 = exit. -/
def g5 : CFG := fun b =>
  if b = 0 then Jump 1
  else if b = 1 then Branch 100 2 4
  else if b = 2 then Jump 3
  else if b = 3 then Jump 1
  else Return 101

/-- `FindBody` of the loop with head `loopHeader` and tail `loopTail` on
`g5`, over `FindPredecessors(entry)`. -/
def bodyG5 : Option (List Nat) :=
  (FindPredecessors g5 0 50).bind (fun p => FindBody ⟨1, 3⟩ p 50)

/-- A graph whose start block has an incoming edge:
0 = S (jumps to A), 1 = A (branches back to S or to E), 2 = E (returns). -/
def gC4 : CFG := fun b =>
  if b = 0 then Jump 1
  else if b = 1 then Branch 100 0 2
  else Return 101

/-- One visit record of the dominators analyzer: the visited block, its
dominator set before the visit, and its dominator set after the visit. -/
structure DomVisit where
  block : Nat
  pre : List Nat
  post : List Nat
deriving DecidableEq, Repr

/-- The dominators analyzer wrapped with a per-visit log, in the style of the
test suite's logging analyzer: same `analyzeBlock` state transition, plus a
record of each visit's before/after set for the visited block. -/
def domLogAnalyze (preds : Table) (st : Table × List DomVisit) (block : Nat) :
    (Table × List DomVisit) × Bool :=
  let pre := tLookupD st.1 block
  let r := analyzeBlock preds st.1 block
  ((r.1, st.2 ++ [⟨block, pre, tLookupD r.1 block⟩]), r.2)

/-- The logged run of the dominators computation on `gC4` from S, over
`FindPredecessors(S)`. -/
def c4run : Option (Table × List DomVisit) :=
  (FindPredecessors gC4 0 50).bind
    (fun p => ForwardDataFlow gC4 (domLogAnalyze p) 0 ([], []) 50)

/-- The plain `FindDominators(S, FindPredecessors(S))` run on `gC4`. -/
def domsGC4 : Option Table :=
  (FindPredecessors gC4 0 50).bind (fun p => FindDominators gC4 0 p 50)

/-- A graph for the `FindNaturalLoops` counterexample: block 7's conditional
branch has both targets equal to 7 itself. -/
def gC6 : CFG := fun _ => Branch 9 7 7

/-- A 3-block chain 0 → 1 → 2 (block 2 returns). -/
def g10 : CFG := fun b =>
  if b = 0 then Jump 1
  else if b = 1 then Jump 2
  else Return 101

/-- The heap after allocating two local symbols (identities 0 and 1) and then
`Store(val = 0, ref = 1)`, paired with the store node's identity. -/
def storeExample : Heap × Nat :=
  let a := LocalSym []
  let b := LocalSym a.1
  Store b.1 a.2 b.2

end examples

section theorems

open ossa oana examples

/-- The inner successor fold of `FindNaturalLoops` appends exactly the
filtered, mapped successor list. -/
theorem loopFold_eq (B : Nat) (D : List Nat) :
    ∀ (ss : List Nat) (acc : List NaturalLoop),
      ss.foldl (fun acc2 succ => if succ ∈ D then acc2 ++ [(⟨succ, B⟩ : NaturalLoop)] else acc2) acc
        = acc ++ (ss.filter (fun s => s ∈ D)).map (fun s => (⟨s, B⟩ : NaturalLoop)) := by
  intro ss
  induction ss with
  | nil => intro acc; simp
  | cons s rest ih =>
    intro acc
    by_cases h : s ∈ D
    · simp [List.foldl_cons, h, ih]
    · simp [List.foldl_cons, h, ih]

/-- C1: on the canonical 4-block loop graph (entry 0 jumps to loopHeader 1;
1 conditionally branches to loopBody 2 or exit 3; 2 jumps back to 1; 3
returns), `FindDominators(entry, FindPredecessors(entry))` produces exactly
the map 0:{0}, 1:{0,1}, 2:{0,1,2}, 3:{0,1,3} and no other keys. -/
theorem findDominators_loop4 :
    domsG4 = some [(0, [0]), (1, [0, 1]), (2, [0, 1, 2]), (3, [0, 1, 3])] := rfl

/-- C3: `ForwardDataFlow` on the canonical 4-block loop graph with the
logging analyzer scheduled for change counts entry:1, loopHeader:2,
loopBody:1, exit:1 invokes the analyzer in exactly the order
[entry, loopHeader, loopBody, loopHeader, loopBody, exit]. -/
theorem forwardDataFlow_loop4_order :
    c3run.map Prod.snd = some [0, 1, 2, 1, 2, 3] := rfl

/-- C4: in the run of `FindDominators` on the graph where the start block S
has an incoming edge (S=0 jumps to A=1; A branches to S or E=2; E returns),
the second visit of S starts with dominator set {0} and ends with {0, 1}:
the set GAINS block 1, which is neither a previous member nor S itself, so
dominator sets do not only shrink (modulo the self re-add) across visits.
The final conjunct shows the plain `FindDominators` run produces the same
final table as the logged run. -/
theorem dominator_set_grows_on_revisit :
    c4run = some ([(0, [0, 1]), (1, [0, 1]), (2, [0, 1, 2])],
        [⟨0, [], [0]⟩, ⟨1, [], [0, 1]⟩, ⟨0, [0], [0, 1]⟩,
         ⟨1, [0, 1], [0, 1]⟩, ⟨2, [], [0, 1, 2]⟩])
      ∧ ((1 : Nat) ∈ ([0, 1] : List Nat) ∧ (1 : Nat) ∉ ([0] : List Nat) ∧ (1 : Nat) ≠ 0)
      ∧ domsGC4 = some [(0, [0, 1]), (1, [0, 1]), (2, [0, 1, 2])] :=
  ⟨rfl, by decide, rfl⟩

/-- C5: on the 5-block loop graph (entry 0 → loopHeader 1; 1 → loopBody 2 or
exit 4; 2 → loopTail 3; 3 → 1; 4 returns), the body of the loop with head 1
and tail 3 computed by `FindBody(FindPredecessors(entry))` is exactly the
set {1, 2, 3}. -/
theorem findBody_loop5 :
    bodyG5 = some [1, 3, 2] ∧ List.Perm [1, 3, 2] [1, 2, 3] :=
  ⟨rfl, by decide⟩

/-- C6 counterexample: for the dominators table {7 ↦ {7}} over the graph in
which block 7's branch has both targets equal to 7, the pair (B = 7, S = 7)
qualifies once, yet `FindNaturalLoops` appends the loop {head 7, tail 7}
twice — not exactly once per qualifying pair. -/
theorem findNaturalLoops_duplicate_pair :
    FindNaturalLoops gC6 [(7, [7])] [] = [⟨7, 7⟩, ⟨7, 7⟩]
      ∧ ¬((FindNaturalLoops gC6 [(7, [7])] []).count ⟨7, 7⟩ = 1) :=
  ⟨rfl, by decide⟩

/-- C6 (amended): for every graph, dominators table and initial loop
sequence, `FindNaturalLoops` returns the initial sequence unchanged and in
order, followed by — for each table entry `(B, D)` in order — one loop
{head S, tail B} per OCCURRENCE of a successor `S` of `B` in `B`'s successor
enumeration with `S ∈ D`, in enumeration order, and nothing else. -/
theorem findNaturalLoops_append_spec (g : CFG) (doms : Table) (dst : List NaturalLoop) :
    FindNaturalLoops g doms dst = dst ++ naturalLoopsOf g doms := by
  induction doms generalizing dst with
  | nil => simp [FindNaturalLoops, naturalLoopsOf]
  | cons e rest ih =>
    have hcons : naturalLoopsOf g (e :: rest)
        = ((successors g e.1).filter (fun s => s ∈ e.2)).map (fun s => (⟨s, e.1⟩ : NaturalLoop))
          ++ naturalLoopsOf g rest := by
      simp [naturalLoopsOf]
    simp only [FindNaturalLoops, List.foldl_cons] at *
    rw [loopFold_eq e.1 e.2 (successors g e.1) dst, ih, hcons, List.append_assoc]

/-- C7: for every terminator built by a factory, `AppendSuccessors` appends
exactly: jump → [target]; branch → [true-target, false-target]; switch →
[default, case targets in declaration order]; return, unreachable → nothing;
yield, await → [resume]. -/
theorem appendSuccessors_per_op (dst : List Nat)
    (target cond trueTarget falseTarget inp defTarget retVal event resume : Nat)
    (cases : List BasicBlockValue) :
    (Jump target).appendSuccessors dst = dst ++ [target]
    ∧ (Branch cond trueTarget falseTarget).appendSuccessors dst = dst ++ [trueTarget, falseTarget]
    ∧ (Switch inp defTarget cases).appendSuccessors dst
        = dst ++ defTarget :: cases.map BasicBlockValue.block
    ∧ (Return retVal).appendSuccessors dst = dst
    ∧ Unreachable.appendSuccessors dst = dst
    ∧ (Yield resume).appendSuccessors dst = dst ++ [resume]
    ∧ (Await event resume).appendSuccessors dst = dst ++ [resume] :=
  ⟨rfl, rfl, rfl, rfl, rfl, rfl, rfl⟩

/-- C8: `Store(val, ref)` with val = node 0 and ref = node 1 allocates store
node 2 whose op is the store code but whose FIRST argument is the store node
itself (2), not the written value val (0); the second argument is ref. -/
theorem store_first_arg_is_self :
    (storeExample.1.getD storeExample.2 ⟨Op.opInvalid, []⟩).op = Op.opStore
    ∧ (storeExample.1.getD storeExample.2 ⟨Op.opInvalid, []⟩).args = [storeExample.2, 1]
    ∧ storeExample.2 = 2
    ∧ (storeExample.1.getD storeExample.2 ⟨Op.opInvalid, []⟩).args ≠ [0, 1] :=
  ⟨rfl, rfl, rfl, by decide⟩

/-- C9: `Peek` on an empty `blockFIFO` dereferences the nil head entry and
crashes instead of returning the nil sentinel; `Peek` on an empty
`blockLIFO` does return the nil sentinel. -/
theorem peek_empty_behavior :
    fifoPeek newblockFIFO = PeekResult.crashed ∧ lifoPeek newBlockLIFO = none :=
  ⟨rfl, rfl⟩

/-- C10: on the chain 0 → 1 → 2, `AddReachable` starting from block 0 with
an empty set terminates with {0, 1}; block 2 is reachable from 0 but
missing, because the loop always re-expands the receiver's successors
instead of the popped block's. -/
theorem addReachable_misses_grandchild :
    AddReachable g10 0 [] 20 = some [0, 1]
    ∧ Reachable g10 0 2
    ∧ (2 : Nat) ∉ ([0, 1] : List Nat) := by
  refine ⟨rfl, ?_, by decide⟩
  have h1 : Reachable g10 0 1 := Reachable.step Reachable.refl (by decide)
  exact Reachable.step h1 (by decide)

/-- C2 counterexample: on the canonical 4-block loop graph every one of the
four blocks is reachable from entry (block 0), but the map returned by
`FindPredecessors(entry)` has no entry at all for the start block: it has
exactly the three keys 1, 2, 3. -/
theorem findPredecessors_missing_start_entry :
    FindPredecessors g4 0 50 = some predsG4
    ∧ tHasKey predsG4 0 = false
    ∧ Reachable g4 0 0 :=
  ⟨rfl, rfl, Reachable.refl⟩

/-- Membership after a set insertion. -/
theorem mem_setAdd {s : List Nat} {a b : Nat} : a ∈ setAdd s b ↔ (a ∈ s ∨ a = b) := by
  unfold setAdd
  by_cases h : b ∈ s
  · simp only [if_pos h]
    constructor
    · exact Or.inl
    · rintro (h1 | rfl)
      · exact h1
      · exact h
  · simp [if_neg h]

/-- Writing a key and reading it back. -/
theorem tLookup_tSet_self : ∀ (t : Table) (k : Nat) (v : List Nat),
    tLookup (tSet t k v) k = some v
  | [], k, v => by simp [tSet, tLookup]
  | e :: rest, k, v => by
    by_cases h : e.1 = k
    · simp [tSet, tLookup, h]
    · simp [tSet, tLookup, h, tLookup_tSet_self rest k v]

/-- Writing one key leaves reads of other keys unchanged. -/
theorem tLookup_tSet_ne : ∀ (t : Table) {k b : Nat}, k ≠ b → ∀ (v : List Nat),
    tLookup (tSet t k v) b = tLookup t b
  | [], k, b, hkb, v => by simp [tSet, tLookup, hkb]
  | e :: rest, k, b, hkb, v => by
    by_cases h : e.1 = k
    · have heb : e.1 ≠ b := by rw [h]; exact hkb
      simp [tSet, tLookup, h, hkb, heb]
    · have hbk : ¬(b = k) := fun hh => hkb hh.symm
      by_cases h2 : e.1 = b
      · simp [tSet, tLookup, h, h2, hbk]
      · simp [tSet, tLookup, h, h2, hbk, tLookup_tSet_ne rest hkb v]

/-- Reading the key just extended by `tAddEdge`. -/
theorem tLookupD_tAddEdge_self (t : Table) (s p : Nat) :
    tLookupD (tAddEdge t s p) s = setAdd (tLookupD t s) p := by
  unfold tAddEdge tLookupD
  rw [tLookup_tSet_self]
  rfl

/-- Reading another key after `tAddEdge`. -/
theorem tLookupD_tAddEdge_ne (t : Table) {s b : Nat} (h : s ≠ b) (p : Nat) :
    tLookupD (tAddEdge t s p) b = tLookupD t b := by
  unfold tAddEdge tLookupD
  rw [tLookup_tSet_ne t h]

/-- Membership in a table value after `tAddEdge`. -/
theorem mem_tLookupD_tAddEdge (t : Table) (s p b q : Nat) :
    q ∈ tLookupD (tAddEdge t s p) b ↔ (q ∈ tLookupD t b ∨ (b = s ∧ q = p)) := by
  by_cases h : b = s
  · subst h
    rw [tLookupD_tAddEdge_self, mem_setAdd]
    simp
  · rw [tLookupD_tAddEdge_ne t (fun hh => h hh.symm)]
    simp [h]

/-- Key presence after `tAddEdge`. -/
theorem tHasKey_tAddEdge (t : Table) (s p b : Nat) :
    tHasKey (tAddEdge t s p) b = true ↔ (tHasKey t b = true ∨ b = s) := by
  by_cases h : b = s
  · subst h
    unfold tAddEdge tHasKey
    rw [tLookup_tSet_self]
    simp
  · unfold tAddEdge tHasKey
    rw [tLookup_tSet_ne t (fun hh => h hh.symm)]
    simp [h]

/-- The last element of a list is a member. -/
theorem getLast?_mem {l : List Nat} {b : Nat} (h : l.getLast? = some b) : b ∈ l := by
  have hd := List.dropLast_append_getLast? b h
  rw [← hd]
  simp

/-- A nonempty list is its dropLast followed by its last element. -/
theorem getLast?_decomp {l : List Nat} {b : Nat} (h : l.getLast? = some b) :
    l = l.dropLast ++ [b] :=
  (List.dropLast_append_getLast? b h).symm

/-- The empty stack satisfies the representation invariant. -/
theorem lifoInv_new : lifoInv newBlockLIFO := by
  simp [lifoInv, newBlockLIFO]

/-- Stack membership after `Add`. -/
theorem mem_lifoAdd_items {q : blockLIFO} (hq : lifoInv q) (x b : Nat) :
    x ∈ (lifoAdd q b).items ↔ (x ∈ q.items ∨ x = b) := by
  unfold lifoAdd
  by_cases h : b ∈ q.present
  · have hb : b ∈ q.items := (hq.2 b).mp h
    simp only [if_pos h]
    constructor
    · exact Or.inl
    · rintro (h1 | rfl)
      · exact h1
      · exact hb
  · simp [if_neg h]

/-- `Add` preserves the stack invariant. -/
theorem lifoInv_add {q : blockLIFO} (hq : lifoInv q) (b : Nat) : lifoInv (lifoAdd q b) := by
  unfold lifoAdd
  by_cases h : b ∈ q.present
  · simpa [if_pos h] using hq
  · simp only [if_neg h]
    refine ⟨?_, ?_⟩
    · have hb : b ∉ q.items := fun hmem => h ((hq.2 b).mpr hmem)
      simp [List.nodup_append, hq.1, hb]
    · intro x
      simp [mem_setAdd, hq.2 x]

/-- `Next` returns nothing exactly on an empty stack. -/
theorem lifoNext_none_iff (q : blockLIFO) : lifoNext q = none ↔ q.items = [] := by
  unfold lifoNext
  cases hg : q.items.getLast? with
  | none => simp [List.getLast?_eq_none_iff.mp hg]
  | some b =>
    have hne : q.items ≠ [] := List.ne_nil_of_mem (getLast?_mem hg)
    simp [hne]

/-- What a successful `Next` pops: a member of the stack, leaving a stack
that satisfies the invariant and holds exactly the other items. -/
theorem lifoNext_some {q : blockLIFO} {pred : Nat} {q1 : blockLIFO}
    (hq : lifoInv q) (hn : lifoNext q = some (pred, q1)) :
    pred ∈ q.items ∧ lifoInv q1
      ∧ (∀ x, x ∈ q1.items ↔ (x ∈ q.items ∧ x ≠ pred)) := by
  unfold lifoNext at hn
  cases hg : q.items.getLast? with
  | none => rw [hg] at hn; simp at hn
  | some b =>
    rw [hg] at hn
    simp only [Option.some.injEq, Prod.mk.injEq] at hn
    obtain ⟨hb, hq1⟩ := hn
    subst hb
    subst hq1
    have hdec : q.items = q.items.dropLast ++ [b] := getLast?_decomp hg
    have hmem : b ∈ q.items := getLast?_mem hg
    have hnd : q.items.dropLast.Nodup ∧ b ∉ q.items.dropLast := by
      have hnodup := hq.1
      rw [hdec, List.nodup_append] at hnodup
      exact ⟨hnodup.1, fun hbd => hnodup.2.2 hbd (List.mem_singleton_self b)⟩
    have hx : ∀ x, x ∈ q.items.dropLast ↔ (x ∈ q.items ∧ x ≠ b) := by
      intro x
      constructor
      · intro hxd
        refine ⟨by rw [hdec]; exact List.mem_append_left _ hxd, ?_⟩
        rintro rfl
        exact hnd.2 hxd
      · rintro ⟨hxi, hxb⟩
        rw [hdec] at hxi
        rcases List.mem_append.mp hxi with h1 | h1
        · exact h1
        · rw [List.mem_singleton] at h1
          exact absurd h1 hxb
    refine ⟨hmem, ⟨hnd.1, ?_⟩, hx⟩
    intro x
    rw [List.mem_filter]
    constructor
    · rintro ⟨hxp, hxb⟩
      rw [decide_eq_true_iff] at hxb
      exact (hx x).mpr ⟨(hq.2 x).mp hxp, hxb⟩
    · intro hxd
      obtain ⟨hxi, hxb⟩ := (hx x).mp hxd
      exact ⟨(hq.2 x).mpr hxi, by rw [decide_eq_true_iff]; exact hxb⟩

/-- Table membership across the successor-processing fold of
`FindPredecessors`: an edge is recorded iff it was already recorded or it is
`pred → b` for a processed successor `b`. -/
theorem procSuccs_table_mem (seen : List Nat) (pred : Nat) :
    ∀ (ss : List Nat) (ret : Table) (q : blockLIFO) (b p : Nat),
      (p ∈ tLookupD (procSuccs seen pred ss ret q).1 b
        ↔ (p ∈ tLookupD ret b ∨ (p = pred ∧ b ∈ ss)))
  | [], ret, q, b, p => by simp [procSuccs]
  | s :: rest, ret, q, b, p => by
    simp only [procSuccs]
    rw [procSuccs_table_mem seen pred rest _ _ b p, mem_tLookupD_tAddEdge]
    constructor
    · rintro ((h1 | ⟨hbs, hp⟩) | ⟨hp, hbr⟩)
      · exact Or.inl h1
      · exact Or.inr ⟨hp, by simp [hbs]⟩
      · exact Or.inr ⟨hp, List.mem_cons_of_mem s hbr⟩
    · rintro (h1 | ⟨hp, hbs⟩)
      · exact Or.inl (Or.inl h1)
      · rcases List.mem_cons.mp hbs with hbeq | hbr
        · exact Or.inl (Or.inr ⟨hbeq, hp⟩)
        · exact Or.inr ⟨hp, hbr⟩

/-- Key presence across the successor-processing fold. -/
theorem procSuccs_table_key (seen : List Nat) (pred : Nat) :
    ∀ (ss : List Nat) (ret : Table) (q : blockLIFO) (b : Nat),
      (tHasKey (procSuccs seen pred ss ret q).1 b = true
        ↔ (tHasKey ret b = true ∨ b ∈ ss))
  | [], ret, q, b => by simp [procSuccs]
  | s :: rest, ret, q, b => by
    simp only [procSuccs]
    rw [procSuccs_table_key seen pred rest _ _ b, tHasKey_tAddEdge]
    constructor
    · rintro ((h1 | hbs) | hbr)
      · exact Or.inl h1
      · exact Or.inr (by simp [hbs])
      · exact Or.inr (List.mem_cons_of_mem s hbr)
    · rintro (h1 | hbs)
      · exact Or.inl (Or.inl h1)
      · rcases List.mem_cons.mp hbs with hbeq | hbr
        · exact Or.inl (Or.inr hbeq)
        · exact Or.inr hbr

/-- The worklist across the successor-processing fold: invariant preserved,
and its items are the old items plus the processed successors not in
`seen`. -/
theorem procSuccs_queue (seen : List Nat) (pred : Nat) :
    ∀ (ss : List Nat) (ret : Table) (q : blockLIFO), lifoInv q →
      lifoInv (procSuccs seen pred ss ret q).2
      ∧ (∀ x, x ∈ (procSuccs seen pred ss ret q).2.items
          ↔ (x ∈ q.items ∨ (x ∈ ss ∧ x ∉ seen)))
  | [], ret, q, hq => ⟨hq, by simp [procSuccs]⟩
  | s :: rest, ret, q, hq => by
    simp only [procSuccs]
    by_cases hs : s ∈ seen
    · simp only [if_pos hs]
      obtain ⟨h1, h2⟩ := procSuccs_queue seen pred rest (tAddEdge ret s pred) q hq
      refine ⟨h1, fun x => ?_⟩
      rw [h2 x]
      constructor
      · rintro (hx | ⟨hxr, hxs⟩)
        · exact Or.inl hx
        · exact Or.inr ⟨List.mem_cons_of_mem s hxr, hxs⟩
      · rintro (hx | ⟨hxs, hnx⟩)
        · exact Or.inl hx
        · rcases List.mem_cons.mp hxs with hxe | hr
          · exact absurd (hxe ▸ hs) hnx
          · exact Or.inr ⟨hr, hnx⟩
    · simp only [if_neg hs]
      obtain ⟨h1, h2⟩ :=
        procSuccs_queue seen pred rest (tAddEdge ret s pred) (lifoAdd q s) (lifoInv_add hq s)
      refine ⟨h1, fun x => ?_⟩
      rw [h2 x, mem_lifoAdd_items hq]
      constructor
      · rintro ((hx | hxe) | ⟨hxr, hxs⟩)
        · exact Or.inl hx
        · exact Or.inr ⟨by simp [hxe], hxe ▸ hs⟩
        · exact Or.inr ⟨List.mem_cons_of_mem s hxr, hxs⟩
      · rintro (hx | ⟨hxs, hnx⟩)
        · exact Or.inl (Or.inl hx)
        · rcases List.mem_cons.mp hxs with hxe | hr
          · exact Or.inl (Or.inr hxe)
          · exact Or.inr ⟨hr, hnx⟩

/-- Correctness of the `FindPredecessors` worklist loop.  Given the loop
invariants, a completed run produces the table whose edges are exactly the
successor edges among the blocks reachable from `start`. -/
theorem findPredecessorsLoop_correct (g : CFG) (start : Nat) :
    ∀ (fuel : Nat) (q : blockLIFO) (seen : List Nat) (ret : Table) (out : Table),
      lifoInv q →
      (∀ b, b ∈ seen → Reachable g start b) →
      (∀ b, b ∈ q.items → Reachable g start b) →
      (start ∈ seen ∨ start ∈ q.items) →
      (∀ p, p ∈ seen → ∀ s, s ∈ successors g p →
        (p ∈ tLookupD ret s ∧ (s ∈ seen ∨ s ∈ q.items))) →
      (∀ s p, p ∈ tLookupD ret s → (p ∈ seen ∧ s ∈ successors g p)) →
      (∀ s, tHasKey ret s = true ↔ ∃ p, p ∈ seen ∧ s ∈ successors g p) →
      findPredecessorsLoop g fuel q seen ret = some out →
      ((∀ s p, p ∈ tLookupD out s ↔ (Reachable g start p ∧ s ∈ successors g p))
        ∧ (∀ s, tHasKey out s = true ↔ ∃ p, Reachable g start p ∧ s ∈ successors g p)) := by
  intro fuel
  induction fuel with
  | zero =>
    intro q seen ret out _ _ _ _ _ _ _ hrun
    simp [findPredecessorsLoop] at hrun
  | succ fuel ih =>
    intro q seen ret out hq hseenR hqR hstart hinv4 hinv5 hinv6 hrun
    cases hnext : lifoNext q with
    | none =>
      have hitems : q.items = [] := (lifoNext_none_iff q).mp hnext
      simp only [findPredecessorsLoop, hnext, Option.some.injEq] at hrun
      subst hrun
      have hRseen : ∀ b, Reachable g start b → b ∈ seen := by
        intro b hb
        induction hb with
        | refl =>
          rcases hstart with h | h
          · exact h
          · rw [hitems] at h
            exact absurd h (List.not_mem_nil start)
        | step hp hs ihp =>
          rcases (hinv4 _ ihp _ hs).2 with h | h
          · exact h
          · rw [hitems] at h
            exact absurd h (List.not_mem_nil _)
      constructor
      · intro s p
        constructor
        · intro hmem
          obtain ⟨hp, hsucc⟩ := hinv5 s p hmem
          exact ⟨hseenR p hp, hsucc⟩
        · rintro ⟨hR, hsucc⟩
          exact (hinv4 p (hRseen p hR) s hsucc).1
      · intro s
        rw [hinv6 s]
        constructor
        · rintro ⟨p, hp, hsucc⟩
          exact ⟨p, hseenR p hp, hsucc⟩
        · rintro ⟨p, hp, hsucc⟩
          exact ⟨p, hRseen p hp, hsucc⟩
    | some pq =>
      obtain ⟨pred, q1⟩ := pq
      obtain ⟨hpredq, hq1, hq1mem⟩ := lifoNext_some hq hnext
      have hRpred : Reachable g start pred := hqR pred hpredq
      simp only [findPredecessorsLoop, hnext] at hrun
      obtain ⟨hq2inv, hq2mem⟩ :=
        procSuccs_queue (setAdd seen pred) pred (successors g pred) ret q1 hq1
      refine ih _ (setAdd seen pred) _ out hq2inv ?_ ?_ ?_ ?_ ?_ ?_ hrun
      · intro b hb
        rcases mem_setAdd.mp hb with h | h
        · exact hseenR b h
        · exact h ▸ hRpred
      · intro b hb
        rcases (hq2mem b).mp hb with h | h
        · exact hqR b ((hq1mem b).mp h).1
        · exact Reachable.step hRpred h.1
      · rcases hstart with h | h
        · exact Or.inl (mem_setAdd.mpr (Or.inl h))
        · by_cases he : start = pred
          · exact Or.inl (mem_setAdd.mpr (Or.inr he))
          · exact Or.inr ((hq2mem start).mpr (Or.inl ((hq1mem start).mpr ⟨h, he⟩)))
      · intro p hp s hs
        rcases mem_setAdd.mp hp with hpseen | hpeq
        · obtain ⟨hmemold, hlocold⟩ := hinv4 p hpseen s hs
          refine ⟨(procSuccs_table_mem _ pred _ ret q1 s p).mpr (Or.inl hmemold), ?_⟩
          rcases hlocold with h | h
          · exact Or.inl (mem_setAdd.mpr (Or.inl h))
          · by_cases he : s = pred
            · exact Or.inl (mem_setAdd.mpr (Or.inr he))
            · exact Or.inr ((hq2mem s).mpr (Or.inl ((hq1mem s).mpr ⟨h, he⟩)))
        · subst hpeq
          refine ⟨(procSuccs_table_mem _ p _ ret q1 s p).mpr (Or.inr ⟨rfl, hs⟩), ?_⟩
          by_cases hseen1 : s ∈ setAdd seen p
          · exact Or.inl hseen1
          · exact Or.inr ((hq2mem s).mpr (Or.inr ⟨hs, hseen1⟩))
      · intro s p hmem
        rcases (procSuccs_table_mem _ pred _ ret q1 s p).mp hmem with h | h
        · obtain ⟨hp, hsucc⟩ := hinv5 s p h
          exact ⟨mem_setAdd.mpr (Or.inl hp), hsucc⟩
        · obtain ⟨hpeq, hsucc⟩ := h
          exact ⟨mem_setAdd.mpr (Or.inr hpeq), hpeq ▸ hsucc⟩
      · intro s
        rw [procSuccs_table_key _ pred _ ret q1 s, hinv6 s]
        constructor
        · rintro (⟨p, hp, hsp⟩ | hsp)
          · exact ⟨p, mem_setAdd.mpr (Or.inl hp), hsp⟩
          · exact ⟨pred, mem_setAdd.mpr (Or.inr rfl), hsp⟩
        · rintro ⟨p, hp, hsp⟩
          rcases mem_setAdd.mp hp with h | h
          · exact Or.inl ⟨p, h, hsp⟩
          · exact Or.inr (h ▸ hsp)

/-- C2 (amended): for every graph and start block whose predecessor
traversal completes, the returned map has one entry exactly for each block
with at least one reachable predecessor — so the start block gets an entry
only if some reachable block has an edge into it — and each entry is a
non-empty set containing exactly the reachable blocks with a successor edge
into that block. -/
theorem findPredecessors_characterization (g : CFG) (start fuel : Nat) (out : Table)
    (h : FindPredecessors g start fuel = some out) :
    (∀ s p, p ∈ tLookupD out s ↔ (Reachable g start p ∧ s ∈ successors g p))
    ∧ (∀ s, tHasKey out s = true ↔ ∃ p, Reachable g start p ∧ s ∈ successors g p)
    ∧ (∀ s, tHasKey out s = true → tLookupD out s ≠ []) := by
  have hstart : (lifoAdd newBlockLIFO start).items = [start] := rfl
  have base := findPredecessorsLoop_correct g start fuel (lifoAdd newBlockLIFO start) [] [] out
    (lifoInv_add lifoInv_new start)
    (by intro b hb; exact absurd hb (List.not_mem_nil b))
    (by
      intro b hb
      rw [hstart, List.mem_singleton] at hb
      exact hb ▸ Reachable.refl)
    (by rw [hstart]; exact Or.inr (List.mem_singleton_self start))
    (by intro p hp; exact absurd hp (List.not_mem_nil p))
    (by intro s p hp; exact absurd hp (List.not_mem_nil p))
    (by
      intro s
      constructor
      · intro hk
        exact absurd hk (by simp [tHasKey, tLookup])
      · rintro ⟨p, hp, _⟩
        exact absurd hp (List.not_mem_nil p))
    h
  refine ⟨base.1, base.2, ?_⟩
  intro s hk
  obtain ⟨p, hR, hs⟩ := (base.2 s).mp hk
  exact List.ne_nil_of_mem ((base.1 s p).mpr ⟨hR, hs⟩)

/-- Witness for the amended C2 theorem: instantiated on the canonical
4-block loop graph, entry (block 0) is a recorded predecessor of loopHeader
(block 1) and loopHeader's entry is non-empty. -/
theorem findPredecessors_characterization_witness :
    (0 : Nat) ∈ tLookupD predsG4 1 ∧ tLookupD predsG4 1 ≠ [] := by
  have h := findPredecessors_characterization g4 0 50 predsG4 rfl
  exact ⟨(h.1 1 0).mpr ⟨Reachable.refl, by decide⟩, h.2.2 1 (by decide)⟩

end theorems
